import Mathlib

/-!
Shallow embedding of the product-search fusion core of `search_products.py`.

The core function `search_products(q, k, ..., require_kw_when_available)` is
modelled as a pure function over a `Backend` record that carries the rows the
five SQL collaborators would return for the query (`rag.find_by_code`,
`rag.search_vec`, `rag.search_ft`, the trigram query and the keyword query).
The database and the embedding call are external collaborators, so their
outputs are the inputs of the model; the pool-size parameters `k_vec .. k_kw`
are consumed by the SQL `LIMIT` clauses inside those collaborators and do not
appear in the fusion logic. Scores are rationals; Python's `round(x, n)` is
modelled by `roundTo n`. Python dicts preserve insertion order, so the
`items` dict is an association list preserving insertion order and
`list.sort` (a stable sort) is an insertion-order-stable descending sort.
-/

namespace SearchProducts

/-- A row of `rag.find_by_code` (line 50): sku, codigo_barras, name, reason. -/
structure DetRow where
  sku : String
  codigo_barras : String
  name : String
  reason : String
deriving DecidableEq, Repr

/-- A row of `rag.search_vec` (line 66): sku, name, codigo_barras, dist. -/
structure VecRow where
  sku : String
  name : String
  codigo_barras : String
  dist : ℚ
deriving DecidableEq, Repr

/-- A row of `rag.search_ft` (line 70). -/
structure FtRow where
  sku : String
  name : String
  codigo_barras : String
  score_ft : ℚ
deriving DecidableEq, Repr

/-- A row of the trigram query (lines 77-85); `score_trgm` is the similarity,
with SQL NULL already collapsed to 0 as by `float(r["score_trgm"] or 0.0)`. -/
structure TrgmRow where
  sku : String
  name : String
  codigo_barras : String
  score_trgm : ℚ
deriving DecidableEq, Repr

/-- A row of the keyword query (lines 109-135). -/
structure KwRow where
  sku : String
  name : String
  codigo_barras : String
  score_kw : ℚ
deriving DecidableEq, Repr

/-- The outputs of the five backend collaborators for one query, i.e. the
state `search_products` reads. A channel whose query failed contributes `[]`
(lines 86-87, 136-137). -/
structure Backend where
  det : List DetRow
  vecRows : List VecRow
  ftRows : List FtRow
  trgmRows : List TrgmRow
  kwRows : List KwRow
deriving DecidableEq, Repr

/-- The tunable parameters of `search_products` that reach the fusion logic. -/
structure Params where
  k : ℕ
  alpha : ℚ
  beta : ℚ
  gamma : ℚ
  delta : ℚ
  require_kw_when_available : Bool
deriving DecidableEq, Repr

/-- The four retrieval channels keying the `scores` dict. -/
inductive Channel where
  | vec
  | ft
  | trgm
  | kw
deriving DecidableEq, Repr

/-- The sparse per-channel score dict `it["scores"]` of one item. -/
structure Scores where
  vec : Option ℚ := none
  ft : Option ℚ := none
  trgm : Option ℚ := none
  kw : Option ℚ := none
deriving DecidableEq, Repr

/-- Assignment `it["scores"][key] = v` (line 147). -/
def setChannel (ch : Channel) (v : ℚ) (s : Scores) : Scores :=
  match ch with
  | .vec => { s with vec := some v }
  | .ft => { s with ft := some v }
  | .trgm => { s with trgm := some v }
  | .kw => { s with kw := some v }

/-- Lookup `it["scores"].get(key)`. -/
def getChannel (ch : Channel) (s : Scores) : Option ℚ :=
  match ch with
  | .vec => s.vec
  | .ft => s.ft
  | .trgm => s.trgm
  | .kw => s.kw

/-- One entry of the `items` dict (lines 144-146). -/
structure Candidate where
  sku : String
  name : String
  codigo_barras : String
  scores : Scores
deriving DecidableEq, Repr

/-- A channel row after its `val_fn` has been applied (lines 149-152). -/
structure ChanRow where
  sku : String
  name : String
  codigo_barras : String
  val : ℚ
deriving DecidableEq, Repr

/-- The `val_fn` of the vec channel: `max(0.0, 1.0 - float(r["dist"]))` (line 149). -/
def vecRowToChan (r : VecRow) : ChanRow :=
  ⟨r.sku, r.name, r.codigo_barras, max 0 (1 - r.dist)⟩

/-- The `val_fn` of the ft channel: `float(r["score_ft"])` (line 150). -/
def ftRowToChan (r : FtRow) : ChanRow :=
  ⟨r.sku, r.name, r.codigo_barras, r.score_ft⟩

/-- The `val_fn` of the trgm channel (line 151). -/
def trgmRowToChan (r : TrgmRow) : ChanRow :=
  ⟨r.sku, r.name, r.codigo_barras, r.score_trgm⟩

/-- The `val_fn` of the kw channel (line 152). -/
def kwRowToChan (r : KwRow) : ChanRow :=
  ⟨r.sku, r.name, r.codigo_barras, r.score_kw⟩

/-- One iteration of `put`'s loop body (lines 142-147):
`items.setdefault(sku, {...})` followed by `it["scores"][key] = val`,
on an insertion-ordered association list. -/
def putOne (ch : Channel) (r : ChanRow) : List Candidate → List Candidate
  | [] => [⟨r.sku, r.name, r.codigo_barras, setChannel ch r.val {}⟩]
  | it :: rest =>
    if it.sku = r.sku then
      ⟨it.sku, it.name, it.codigo_barras, setChannel ch r.val it.scores⟩ :: rest
    else
      it :: putOne ch r rest

/-- The loop `put(rows, key, val_fn)` (lines 141-147), the rows already mapped
through `val_fn`. -/
def put (items : List Candidate) (ch : Channel) (rows : List ChanRow) : List Candidate :=
  rows.foldl (fun acc r => putOne ch r acc) items

/-- The four `put` calls building `items` (lines 140-152). -/
def aggregateAll (b : Backend) : List Candidate :=
  put (put (put (put [] .vec (b.vecRows.map vecRowToChan))
      .ft (b.ftRows.map ftRowToChan))
      .trgm (b.trgmRows.map trgmRowToChan))
      .kw (b.kwRows.map kwRowToChan)

/-- Lookup `it["scores"].get(ch, 0.0)` (lines 154-157, 175-178). -/
def chanScore (ch : Channel) (c : Candidate) : ℚ :=
  (getChannel ch c.scores).getD 0

/-- Python `max((it["scores"].get(ch, 0.0) for it in items.values()), default=0.0)`
(lines 154-157): 0 when `items` is empty, otherwise the maximum of the
per-item defaulted scores. -/
def maxChan (ch : Channel) : List Candidate → ℚ
  | [] => 0
  | c :: cs => cs.foldl (fun m x => max m (chanScore ch x)) (chanScore ch c)

/-- The four fusion weights. -/
structure Weights where
  vec : ℚ
  ft : ℚ
  trgm : ℚ
  kw : ℚ
deriving DecidableEq, Repr

/-- Weight rebalancing (lines 159-171): zero the weight of each channel whose
max is not positive, sum the survivors, and divide all by the sum when it is
positive. -/
def rebalance (alpha beta gamma delta mv mf mt mk : ℚ) : Weights :=
  let wv := if 0 < mv then alpha else 0
  let wf := if 0 < mf then beta else 0
  let wt := if 0 < mt then gamma else 0
  let wk := if 0 < mk then delta else 0
  let total := wv + wf + wt + wk
  if 0 < total then ⟨wv / total, wf / total, wt / total, wk / total⟩
  else ⟨wv, wf, wt, wk⟩

/-- Per-channel normalization (lines 175-178): raw / max when the max is
positive, else 0. -/
def normChan (raw maxv : ℚ) : ℚ :=
  if 0 < maxv then raw / maxv else 0

/-- Python round: `round(q, n)` on our rational model. -/
def roundTo (n : ℕ) (q : ℚ) : ℚ :=
  ((round (q * 10 ^ n) : ℤ) : ℚ) / 10 ^ n

/-- One element of the returned `results` list. The hybrid path fills
`vec/ft/trgm/kw` and leaves `reason` absent; the deterministic path fills
`reason` and leaves the channel fields absent (lines 57-60, 180-183). -/
structure Entry where
  sku : String
  name : String
  codigo_barras : String
  score : ℚ
  vec : Option ℚ := none
  ft : Option ℚ := none
  trgm : Option ℚ := none
  kw : Option ℚ := none
  reason : Option String := none
deriving DecidableEq, Repr

/-- Lookup `r.get("kw", 0.0)` on a result entry (lines 187-188). -/
def kwOf (e : Entry) : ℚ :=
  e.kw.getD 0

/-- The dict returned by `search_products`; `weights` is optional because the
deterministic-path dict (lines 54-61) carries no `"weights"` key. -/
structure SearchResult where
  method : String
  confidence : ℚ
  weights : Option Weights
  results : List Entry
deriving DecidableEq, Repr

/-- The rebalanced weights of one query (lines 154-171). -/
def weightsOf (p : Params) (b : Backend) : Weights :=
  let items := aggregateAll b
  rebalance p.alpha p.beta p.gamma p.delta
    (maxChan .vec items) (maxChan .ft items) (maxChan .trgm items) (maxChan .kw items)

/-- The `results` list right after the fusion loop (lines 173-183), before
sorting: one entry per item, in `items` insertion order, with rounded fused
and per-channel normalized scores. -/
def fusedEntries (p : Params) (b : Backend) : List Entry :=
  let items := aggregateAll b
  let mv := maxChan .vec items
  let mf := maxChan .ft items
  let mt := maxChan .trgm items
  let mk := maxChan .kw items
  let w := rebalance p.alpha p.beta p.gamma p.delta mv mf mt mk
  items.map (fun it =>
    let vn := normChan (chanScore .vec it) mv
    let fn := normChan (chanScore .ft it) mf
    let tn := normChan (chanScore .trgm it) mt
    let kn := normChan (chanScore .kw it) mk
    { sku := it.sku, name := it.name, codigo_barras := it.codigo_barras,
      score := roundTo 4 (w.vec * vn + w.ft * fn + w.trgm * tn + w.kw * kn),
      vec := some (roundTo 4 vn), ft := some (roundTo 4 fn),
      trgm := some (roundTo 4 tn), kw := some (roundTo 4 kn) })

/-- Stable insertion into a score-descending list: the new element goes in
front of the first element whose score is not greater. Later-inserted
elements with equal score stay behind earlier ones, as with Python's stable
`list.sort`. -/
def insertDesc (x : Entry) : List Entry → List Entry
  | [] => [x]
  | y :: ys => if y.score ≤ x.score then x :: y :: ys else y :: insertDesc x ys

/-- `results.sort(key=lambda x: x["score"], reverse=True)` (line 185):
a stable descending sort on `score`. -/
def sortDesc : List Entry → List Entry
  | [] => []
  | x :: xs => insertDesc x (sortDesc xs)

/-- The fused list after the stable descending sort (line 185). -/
def rankedEntries (p : Params) (b : Backend) : List Entry :=
  sortDesc (fusedEntries p b)

/-- The keyword gate (lines 187-188): when exercised, keep only entries with
`kw > 0`, falling back to the unfiltered list should the filter empty it. -/
def gatedEntries (p : Params) (b : Backend) : List Entry :=
  if p.require_kw_when_available && (rankedEntries p b).any (fun r => decide (0 < kwOf r)) then
    if ((rankedEntries p b).filter (fun r => decide (0 < kwOf r))).isEmpty then
      rankedEntries p b
    else
      (rankedEntries p b).filter (fun r => decide (0 < kwOf r))
  else rankedEntries p b

/-- Expression `results[0]["score"] if results else 0.0` (line 189). -/
def headScore : List Entry → ℚ
  | [] => 0
  | e :: _ => e.score

/-- Lookup of a SKU in the insertion-ordered `items` association list. -/
def lookupCand (s : String) : List Candidate → Option Candidate
  | [] => none
  | c :: cs => if c.sku = s then some c else lookupCand s cs

/-- The function `search_products` (lines 33-195) over the collaborator outputs: the
deterministic short-circuit (lines 52-61), then fusion, sorting, the keyword
gate, confidence extraction and truncation (lines 139-195). -/
def search (p : Params) (b : Backend) : SearchResult :=
  match b.det with
  | [r] =>
    { method := "deterministic", confidence := 1, weights := none,
      results := [{ sku := r.sku, name := r.name, codigo_barras := r.codigo_barras,
                    score := 1, reason := some r.reason }] }
  | _ =>
    let gated := gatedEntries p b
    { method := if b.det = [] then "hybrid" else "hybrid_with_deterministic_candidates",
      confidence := roundTo 4 (headScore gated),
      weights := some ⟨roundTo 2 (weightsOf p b).vec, roundTo 2 (weightsOf p b).ft,
                       roundTo 2 (weightsOf p b).trgm, roundTo 2 (weightsOf p b).kw⟩,
      results := gated.take p.k }

/-- The default tunables of `search_products` (lines 33-36). -/
def pDef : Params :=
  ⟨8, 1 / 2, 3 / 10, 1 / 10, 1 / 10, true⟩

/-- The default tunables with result limit `k = 0`. -/
def pK0 : Params :=
  ⟨0, 1 / 2, 3 / 10, 1 / 10, 1 / 10, true⟩

/-- A concrete deterministic row. -/
def detRowS : DetRow :=
  ⟨"S", "789", "Cimento 50kg", "sku"⟩

/-- Backend state where `find_by_code` returns exactly one row. -/
def bDetOne : Backend :=
  ⟨[detRowS], [], [], [], []⟩

/-- Backend state where `find_by_code` returns two rows (ambiguous match). -/
def bDetTwo : Backend :=
  ⟨[⟨"S", "789", "Cimento 50kg", "sku"⟩, ⟨"T", "790", "Cimento 25kg", "barcode"⟩],
   [], [], [], []⟩

/-- Backend state with only keyword rows, SKU `"B"` before `"A"`, equal raw
scores, so the two fused scores tie. -/
def bTieBA : Backend :=
  ⟨[], [], [], [], [⟨"B", "prod b", "2", 2⟩, ⟨"A", "prod a", "1", 2⟩]⟩

/-- Syntactically distinct copy of `bTieBA` with equal field values. -/
def bTieBA2 : Backend :=
  ⟨[], [], [], [], [⟨"B", "prod b", "2", 2⟩, ⟨"A", "prod a", "1", 2⟩]⟩

theorem search_of_det_ne_one (p : Params) (b : Backend) (h : b.det.length ≠ 1) :
    search p b =
      { method := if b.det = [] then "hybrid" else "hybrid_with_deterministic_candidates",
        confidence := roundTo 4 (headScore (gatedEntries p b)),
        weights := some ⟨roundTo 2 (weightsOf p b).vec, roundTo 2 (weightsOf p b).ft,
                         roundTo 2 (weightsOf p b).trgm, roundTo 2 (weightsOf p b).kw⟩,
        results := (gatedEntries p b).take p.k } := by
  rcases hb : b.det with _ | ⟨r, _ | ⟨r2, rest⟩⟩
  · simp [search, hb]
  · exact absurd (by rw [hb]; rfl) h
  · simp [search, hb]

/-- C1: if the deterministic code lookup returns exactly one row, search
returns method deterministic, confidence 1, a single result carrying that row
with score 1, and the output does not depend on any channel rows or on the
embedding (no retrieval channel adapter contributes). -/
theorem C1_deterministic_short_circuit (p : Params) (b : Backend) (r : DetRow)
    (h : b.det = [r]) :
    search p b =
      { method := "deterministic", confidence := 1, weights := none,
        results := [{ sku := r.sku, name := r.name, codigo_barras := r.codigo_barras,
                      score := 1, reason := some r.reason }] }
    ∧ ∀ b2 : Backend, b2.det = b.det → search p b2 = search p b := by
  have hmain : ∀ b3 : Backend, b3.det = [r] → search p b3 =
      { method := "deterministic", confidence := 1, weights := none,
        results := [{ sku := r.sku, name := r.name, codigo_barras := r.codigo_barras,
                      score := 1, reason := some r.reason }] } := by
    intro b3 h3
    simp [search, h3]
  exact ⟨hmain b h, fun b2 h2 => by rw [hmain b h, hmain b2 (h2.trans h)]⟩

/-- Closed instance of `C1_deterministic_short_circuit` at a concrete
single-hit backend. -/
theorem C1_witness :
    search pDef bDetOne =
      { method := "deterministic", confidence := 1, weights := none,
        results := [{ sku := detRowS.sku, name := detRowS.name,
                      codigo_barras := detRowS.codigo_barras,
                      score := 1, reason := some detRowS.reason }] }
    ∧ ∀ b2 : Backend, b2.det = bDetOne.det → search pDef b2 = search pDef bDetOne :=
  C1_deterministic_short_circuit pDef bDetOne detRowS rfl

/-- C2 counterexample: with two (ambiguous) deterministic hits the code
returns method `"hybrid_with_deterministic_candidates"`, which is neither
`"deterministic"` nor `"hybrid"`. -/
theorem C2_counterexample :
    ¬ ((search pDef bDetTwo).method = "deterministic" ∨
       (search pDef bDetTwo).method = "hybrid") := by
  decide

/-- C2 amended: the method field is one of `"deterministic"`, `"hybrid"` or
`"hybrid_with_deterministic_candidates"`; when the deterministic lookup
returns more than one exact hit the query does fall through to hybrid ranking
— the returned results are the ranked, keyword-gated hybrid entries truncated
to `k` and the confidence is read from that ranked list — but the returned
method is `"hybrid_with_deterministic_candidates"`, not `"hybrid"`. -/
theorem C2_amended_methods (p : Params) (b : Backend) :
    ((search p b).method = "deterministic" ∨ (search p b).method = "hybrid" ∨
     (search p b).method = "hybrid_with_deterministic_candidates")
    ∧ (1 < b.det.length →
        (search p b).method = "hybrid_with_deterministic_candidates" ∧
        (search p b).results = (gatedEntries p b).take p.k ∧
        (search p b).confidence = roundTo 4 (headScore (gatedEntries p b))) := by
  rcases hb : b.det with _ | ⟨r, _ | ⟨r2, rest⟩⟩
  · refine ⟨Or.inr (Or.inl ?_), fun hlen => ?_⟩
    · simp [search, hb]
    · simp at hlen
  · refine ⟨Or.inl ?_, fun hlen => ?_⟩
    · simp [search, hb]
    · simp at hlen
  · refine ⟨Or.inr (Or.inr ?_), fun _ => ⟨?_, ?_, ?_⟩⟩ <;> simp [search, hb]

/-- Closed instance of `C2_amended_methods` at a two-hit backend: the method
tag and the hybrid-pipeline results and confidence. -/
theorem C2_witness :
    (search pDef bDetTwo).method = "hybrid_with_deterministic_candidates" ∧
    (search pDef bDetTwo).results = (gatedEntries pDef bDetTwo).take pDef.k ∧
    (search pDef bDetTwo).confidence = roundTo 4 (headScore (gatedEntries pDef bDetTwo)) :=
  (C2_amended_methods pDef bDetTwo).2 (by decide)

/-- C8 counterexample: the deterministic-path return dict carries no
`"weights"` key. -/
theorem C8_counterexample :
    (search pDef bDetOne).method = "deterministic" ∧
    (search pDef bDetOne).weights = none := by
  decide

/-- C8 amended: the hybrid-path result carries all four fields, with the
effective per-channel weights rounded to 2 decimals, while the
deterministic-path result carries method, confidence and results but no
weights field. -/
theorem C8_amended_fields (p : Params) (b : Backend) :
    (b.det.length ≠ 1 →
      (search p b).weights =
        some ⟨roundTo 2 (weightsOf p b).vec, roundTo 2 (weightsOf p b).ft,
              roundTo 2 (weightsOf p b).trgm, roundTo 2 (weightsOf p b).kw⟩)
    ∧ (b.det.length = 1 → (search p b).weights = none) := by
  rcases hb : b.det with _ | ⟨r, _ | ⟨r2, rest⟩⟩
  · refine ⟨fun _ => ?_, fun h => ?_⟩
    · simp [search, hb]
    · simp at h
  · refine ⟨fun h => ?_, fun _ => ?_⟩
    · simp at h
    · simp [search, hb]
  · refine ⟨fun _ => ?_, fun h => ?_⟩
    · simp [search, hb]
    · simp at h

/-- Closed instance of `C8_amended_fields` on the deterministic path. -/
theorem C8_witness :
    (search pDef bDetOne).weights = none :=
  (C8_amended_fields pDef bDetOne).2 (by decide)

/-- C9: search is a deterministic function of the query parameters and the
backend state: two calls with equal parameters and field-wise equal backend
rows return equal SearchResults, including the order of results. -/
theorem C9_deterministic_replay (p q : Params) (a b : Backend)
    (hp : p = q) (h1 : a.det = b.det) (h2 : a.vecRows = b.vecRows)
    (h3 : a.ftRows = b.ftRows) (h4 : a.trgmRows = b.trgmRows)
    (h5 : a.kwRows = b.kwRows) :
    search p a = search q b := by
  have hab : a = b := by
    cases a; cases b; simp_all
  rw [hp, hab]

/-- Closed instance of `C9_deterministic_replay` on two syntactically
distinct but equal backend states. -/
theorem C9_witness : search pDef bTieBA = search pDef bTieBA2 :=
  C9_deterministic_replay pDef pDef bTieBA bTieBA2 rfl rfl rfl rfl rfl rfl

theorem mem_insertDesc {x y : Entry} {l : List Entry} :
    y ∈ insertDesc x l ↔ y = x ∨ y ∈ l := by
  induction l with
  | nil => simp [insertDesc]
  | cons a as ih =>
    simp only [insertDesc]
    split
    · simp only [List.mem_cons]
    · simp only [List.mem_cons, ih]
      tauto

theorem pairwise_insertDesc {x : Entry} {l : List Entry}
    (h : l.Pairwise (fun a c => c.score ≤ a.score)) :
    (insertDesc x l).Pairwise (fun a c => c.score ≤ a.score) := by
  induction l with
  | nil => simp [insertDesc]
  | cons a as ih =>
    rw [List.pairwise_cons] at h
    obtain ⟨ha, has⟩ := h
    simp only [insertDesc]
    split
    · rename_i hax
      refine List.pairwise_cons.mpr ⟨?_, List.pairwise_cons.mpr ⟨ha, has⟩⟩
      intro z hz
      rcases List.mem_cons.mp hz with rfl | hz2
      · exact hax
      · exact le_trans (ha z hz2) hax
    · rename_i hax
      refine List.pairwise_cons.mpr ⟨?_, ih has⟩
      intro z hz
      rcases mem_insertDesc.mp hz with rfl | hz2
      · exact le_of_lt (not_le.mp hax)
      · exact ha z hz2

theorem sortDesc_pairwise (l : List Entry) :
    (sortDesc l).Pairwise (fun a c => c.score ≤ a.score) := by
  induction l with
  | nil => simp [sortDesc]
  | cons x xs ih => exact pairwise_insertDesc ih

theorem mem_sortDesc {y : Entry} {l : List Entry} :
    y ∈ sortDesc l ↔ y ∈ l := by
  induction l with
  | nil => simp [sortDesc]
  | cons x xs ih => simp [sortDesc, mem_insertDesc, ih]

theorem insertDesc_ne_nil (x : Entry) (l : List Entry) :
    insertDesc x l ≠ [] := by
  cases l with
  | nil => simp [insertDesc]
  | cons a as =>
    simp only [insertDesc]
    split <;> simp

theorem gated_pairwise (p : Params) (b : Backend) :
    (gatedEntries p b).Pairwise (fun a c => c.score ≤ a.score) := by
  unfold gatedEntries
  have hr : (rankedEntries p b).Pairwise (fun a c => c.score ≤ a.score) :=
    sortDesc_pairwise _
  split
  · split
    · exact hr
    · exact List.Pairwise.sublist (List.filter_sublist _) hr
  · exact hr

theorem mem_gated_mem_fused {p : Params} {b : Backend} {e : Entry}
    (he : e ∈ gatedEntries p b) : e ∈ fusedEntries p b := by
  have hr : e ∈ rankedEntries p b := by
    unfold gatedEntries at he
    split at he
    · split at he
      · exact he
      · exact List.Sublist.mem he (List.filter_sublist _)
    · exact he
  exact mem_sortDesc.mp hr

theorem gated_ne_nil (p : Params) (b : Backend) (hne : fusedEntries p b ≠ []) :
    gatedEntries p b ≠ [] := by
  have hr : rankedEntries p b ≠ [] := by
    unfold rankedEntries
    cases hf : fusedEntries p b with
    | nil => exact absurd hf hne
    | cons x xs => simpa [sortDesc] using insertDesc_ne_nil x (sortDesc xs)
  unfold gatedEntries
  split
  · split
    · exact hr
    · rename_i hemp
      intro hnil
      rw [hnil] at hemp
      simp at hemp
  · exact hr

theorem score_of_mem_fused {p : Params} {b : Backend} {e : Entry}
    (he : e ∈ fusedEntries p b) : ∃ raw : ℚ, e.score = roundTo 4 raw := by
  unfold fusedEntries at he
  obtain ⟨it, _, rfl⟩ := List.mem_map.mp he
  exact ⟨_, rfl⟩

theorem roundTo_roundTo (n : ℕ) (q : ℚ) :
    roundTo n (roundTo n q) = roundTo n q := by
  unfold roundTo
  have hpow : ((10 : ℚ) ^ n) ≠ 0 := by positivity
  rw [div_mul_cancel₀ _ hpow, round_intCast]

theorem roundTo_zero (n : ℕ) : roundTo n 0 = 0 := by
  unfold roundTo
  norm_num

theorem roundTo_one (n : ℕ) : roundTo n 1 = 1 := by
  unfold roundTo
  rw [one_mul, round_eq]
  have h1 : ((10 : ℚ) ^ n + 1 / 2 : ℚ) = ((10 ^ n : ℤ) : ℚ) + 1 / 2 := by push_cast; ring
  have h2 : ⌊(1 : ℚ) / 2⌋ = 0 := by norm_num
  rw [h1, Int.floor_int_add, h2, add_zero]
  push_cast
  exact div_self (by positivity)

/-- Evaluation of the hybrid pipeline on the `bTieBA` fixture: both
candidates fuse to score 1 and come back in insertion order `B`, `A`. -/
theorem gated_bTieBA (p : Params) (h1 : p.alpha = 1 / 2) (h2 : p.beta = 3 / 10)
    (h3 : p.gamma = 1 / 10) (h4 : p.delta = 1 / 10)
    (h5 : p.require_kw_when_available = true) :
    gatedEntries p bTieBA =
      [⟨"B", "prod b", "2", 1, some 0, some 0, some 0, some 1, none⟩,
       ⟨"A", "prod a", "1", 1, some 0, some 0, some 0, some 1, none⟩] := by
  simp [gatedEntries, rankedEntries, fusedEntries, aggregateAll, put, putOne, maxChan,
    chanScore, getChannel, setChannel, rebalance, normChan, sortDesc, insertDesc,
    kwOf, bTieBA, kwRowToChan, h1, h2, h3, h4, h5, roundTo_zero, roundTo_one,
    show (0:ℚ) < 2 by norm_num, show ¬ (0:ℚ) < 0 by norm_num,
    show (0:ℚ) < 1 / 10 by norm_num, show ((1:ℚ) / 10) / (1 / 10) = 1 by norm_num,
    show ((0:ℚ) / (1 / 10)) = 0 by norm_num, show ((2:ℚ) / 2) = 1 by norm_num,
    show (0:ℚ) < 1 by norm_num]

/-- C4 counterexample: two candidates with equal fused score come back in
candidate-insertion order (SKU `"B"` before `"A"`), not SKU-ascending. -/
theorem C4_counterexample :
    (search pDef bTieBA).results.map Entry.sku = ["B", "A"] ∧
    (search pDef bTieBA).results.map Entry.score = [1, 1] := by
  have hres : (search pDef bTieBA).results = (gatedEntries pDef bTieBA).take pDef.k := by
    rw [search_of_det_ne_one pDef bTieBA (by decide)]
  rw [hres, gated_bTieBA pDef rfl rfl rfl rfl rfl]
  simp [pDef]

/-- C4 amended: every hybrid-path results list has length at most `k` and is
sorted by score descending; entries with equal fused score appear in
candidate-insertion order (Python's stable sort over dict order), not
necessarily SKU-ascending. -/
theorem C4_amended_sorted (p : Params) (b : Backend) (h : b.det.length ≠ 1) :
    (search p b).results.length ≤ p.k ∧
    (search p b).results.Pairwise (fun a c => c.score ≤ a.score) := by
  rw [search_of_det_ne_one p b h]
  exact ⟨List.length_take_le p.k (gatedEntries p b),
    List.Pairwise.sublist (List.take_sublist p.k (gatedEntries p b)) (gated_pairwise p b)⟩

/-- Closed instance of `C4_amended_sorted` at a concrete hybrid call. -/
theorem C4_witness :
    (search pDef bTieBA).results.length ≤ pDef.k ∧
    (search pDef bTieBA).results.Pairwise (fun a c => c.score ≤ a.score) :=
  C4_amended_sorted pDef bTieBA (by decide)

/-- C5: on a hybrid call with `require_kw_when_available` set, if some ranked
candidate has keyword score above 0 then every returned entry has keyword
score above 0 (the empty-filter fallback of line 188 cannot fire, because the
filter keeps the witnessing candidate). -/
theorem C5_keyword_gate (p : Params) (b : Backend) (hdet : b.det.length ≠ 1)
    (hreq : p.require_kw_when_available = true)
    (hkw : ∃ e ∈ rankedEntries p b, 0 < kwOf e) :
    ∀ e ∈ (search p b).results, 0 < kwOf e := by
  intro e he
  rw [search_of_det_ne_one p b hdet] at he
  have he2 : e ∈ gatedEntries p b := List.mem_of_mem_take he
  have hany : (rankedEntries p b).any (fun r => decide (0 < kwOf r)) = true := by
    rw [List.any_eq_true]
    obtain ⟨e0, he0, hk0⟩ := hkw
    exact ⟨e0, he0, by simpa using hk0⟩
  have hfne : (rankedEntries p b).filter (fun r => decide (0 < kwOf r)) ≠ [] := by
    obtain ⟨e0, he0, hk0⟩ := hkw
    intro hnil
    have hmem : e0 ∈ (rankedEntries p b).filter (fun r => decide (0 < kwOf r)) :=
      List.mem_filter.mpr ⟨he0, by simpa using hk0⟩
    rw [hnil] at hmem
    exact absurd hmem (List.not_mem_nil e0)
  unfold gatedEntries at he2
  rw [hreq] at he2
  simp only [hany, Bool.true_and, if_true] at he2
  rw [if_neg (fun hemp => hfne (List.isEmpty_iff.mp hemp))] at he2
  have := List.mem_filter.mp he2
  simpa using this.2

/-- Closed instance of `C5_keyword_gate` at a concrete hybrid call: every
returned entry has keyword score above 0. -/
theorem C5_witness :
    (search pDef bTieBA).results.all (fun e => decide (0 < kwOf e)) = true := by
  have hkw : ∃ e ∈ rankedEntries pDef bTieBA, 0 < kwOf e := by
    have hmemg : (⟨"B", "prod b", "2", 1, some 0, some 0, some 0, some 1, none⟩ : Entry) ∈
        gatedEntries pDef bTieBA := by
      rw [gated_bTieBA pDef rfl rfl rfl rfl rfl]
      exact List.mem_cons_self _ _
    refine ⟨⟨"B", "prod b", "2", 1, some 0, some 0, some 0, some 1, none⟩, ?_, by simp [kwOf]⟩
    unfold rankedEntries
    exact mem_sortDesc.mpr (mem_gated_mem_fused hmemg)
  rw [List.all_eq_true]
  intro e he
  simpa using C5_keyword_gate pDef bTieBA (by decide) (by decide) hkw e he

/-- C10: in the hybrid path the confidence is read off the ranked list before
truncation to `k`: with `k = 0` and at least one candidate, the returned
results list is empty while the confidence equals the fused score of the top
ranked (post-gate) entry. -/
theorem C10_confidence_pre_truncation (p : Params) (b : Backend)
    (hdet : b.det.length ≠ 1) (hk : p.k = 0) (hne : fusedEntries p b ≠ []) :
    (search p b).results = [] ∧
    ∃ e, (gatedEntries p b).head? = some e ∧ (search p b).confidence = e.score := by
  rw [search_of_det_ne_one p b hdet]
  refine ⟨by simp [hk], ?_⟩
  obtain ⟨e, es, hge⟩ := List.exists_cons_of_ne_nil (gated_ne_nil p b hne)
  refine ⟨e, by rw [hge]; rfl, ?_⟩
  have hmem : e ∈ gatedEntries p b := by rw [hge]; exact List.mem_cons_self e es
  obtain ⟨raw, hraw⟩ := score_of_mem_fused (mem_gated_mem_fused hmem)
  simp only [hge, headScore, hraw, roundTo_roundTo]

theorem gated_of_fused_nil {p : Params} {b : Backend}
    (h : fusedEntries p b = []) : gatedEntries p b = [] := by
  unfold gatedEntries rankedEntries
  rw [h]
  simp [sortDesc]

/-- Closed instance of `C10_confidence_pre_truncation` with `k = 0` and a
nonzero confidence, showing the empty results list does not force
confidence 0. -/
theorem C10_witness :
    ((search pK0 bTieBA).results = [] ∧
     ∃ e, (gatedEntries pK0 bTieBA).head? = some e ∧
       (search pK0 bTieBA).confidence = e.score) ∧
    (search pK0 bTieBA).confidence = 1 := by
  have hg := gated_bTieBA pK0 rfl rfl rfl rfl rfl
  have hfne : fusedEntries pK0 bTieBA ≠ [] := by
    intro h0
    have h1 := gated_of_fused_nil h0
    rw [hg] at h1
    exact absurd h1 (by simp)
  refine ⟨C10_confidence_pre_truncation pK0 bTieBA (by decide) rfl hfne, ?_⟩
  rw [search_of_det_ne_one pK0 bTieBA (by decide)]
  show roundTo 4 (headScore (gatedEntries pK0 bTieBA)) = 1
  rw [hg]
  show roundTo 4 (1 : ℚ) = 1
  exact roundTo_one 4

theorem getChannel_setChannel_self (ch : Channel) (v : ℚ) (s : Scores) :
    getChannel ch (setChannel ch v s) = some v := by
  cases ch <;> simp [setChannel, getChannel]

theorem put_cons (items : List Candidate) (ch : Channel) (r : ChanRow) (rs : List ChanRow) :
    put items ch (r :: rs) = put (putOne ch r items) ch rs :=
  rfl

theorem lookupCand_putOne_ne {s : String} (ch : Channel) (r : ChanRow)
    (items : List Candidate) (hne : r.sku ≠ s) :
    lookupCand s (putOne ch r items) = lookupCand s items := by
  induction items with
  | nil => simp [putOne, lookupCand, hne]
  | cons a as ih =>
    simp only [putOne]
    split
    · rename_i has
      have hns : a.sku ≠ s := by rw [has]; exact hne
      simp only [lookupCand, if_neg hns]
    · simp only [lookupCand, ih]

theorem lookupCand_putOne_found (ch : Channel) (r : ChanRow) (items : List Candidate)
    (c : Candidate) (h : lookupCand r.sku items = some c) :
    lookupCand r.sku (putOne ch r items) =
      some ⟨c.sku, c.name, c.codigo_barras, setChannel ch r.val c.scores⟩ := by
  induction items with
  | nil => simp [lookupCand] at h
  | cons a as ih =>
    simp only [putOne]
    split
    · rename_i has
      simp only [lookupCand, has, if_pos] at h
      cases h
      simp [lookupCand, has]
    · rename_i has
      simp only [lookupCand, if_neg has] at h ⊢
      exact ih h

theorem lookupCand_putOne_missing (ch : Channel) (r : ChanRow) (items : List Candidate)
    (h : lookupCand r.sku items = none) :
    lookupCand r.sku (putOne ch r items) =
      some ⟨r.sku, r.name, r.codigo_barras, setChannel ch r.val {}⟩ := by
  induction items with
  | nil => simp [putOne, lookupCand]
  | cons a as ih =>
    simp only [putOne]
    split
    · rename_i has
      simp only [lookupCand, has, if_pos] at h
      exact Option.noConfusion h
    · rename_i has
      simp only [lookupCand, if_neg has] at h ⊢
      exact ih h

theorem lookupCand_put_of_not_mem {s : String} (ch : Channel) (rows : List ChanRow)
    (items : List Candidate) (h : ∀ r ∈ rows, r.sku ≠ s) :
    lookupCand s (put items ch rows) = lookupCand s items := by
  induction rows generalizing items with
  | nil => rfl
  | cons r rs ih =>
    rw [put_cons, ih _ (fun x hx => h x (List.mem_cons_of_mem r hx)),
      lookupCand_putOne_ne ch r items (h r (List.mem_cons_self r rs))]

theorem put_preserves_found {s : String} (ch : Channel) (rows : List ChanRow)
    (items : List Candidate) (c : Candidate) (h : lookupCand s items = some c) :
    ∃ c2, lookupCand s (put items ch rows) = some c2 ∧
      c2.name = c.name ∧ c2.codigo_barras = c.codigo_barras := by
  induction rows generalizing items c with
  | nil => exact ⟨c, h, rfl, rfl⟩
  | cons r rs ih =>
    rw [put_cons]
    by_cases hr : r.sku = s
    · subst hr
      obtain ⟨c2, h2, hn, hcb⟩ := ih (putOne ch r items)
        ⟨c.sku, c.name, c.codigo_barras, setChannel ch r.val c.scores⟩
        (lookupCand_putOne_found ch r items c h)
      exact ⟨c2, h2, hn, hcb⟩
    · exact ih (putOne ch r items) c ((lookupCand_putOne_ne ch r items hr).trans h)

theorem put_score_last (ch : Channel) (rows : List ChanRow) (items : List Candidate)
    (s : String) (rl : ChanRow)
    (hlast : (rows.filter (fun r => r.sku = s)).getLast? = some rl) :
    ∃ c, lookupCand s (put items ch rows) = some c ∧
      getChannel ch c.scores = some rl.val := by
  induction rows generalizing items with
  | nil => simp at hlast
  | cons r rs ih =>
    rw [put_cons]
    by_cases hr : r.sku = s
    · subst hr
      rw [List.filter_cons_of_pos (by simp)] at hlast
      by_cases hrs : rs.filter (fun x => decide (x.sku = r.sku)) = []
      · rw [hrs, List.getLast?_singleton] at hlast
        have hrl : r = rl := by simpa using hlast
        subst hrl
        have hnone2 : ∀ x ∈ rs, x.sku ≠ r.sku := by
          intro x hx hxs
          have hmem : x ∈ rs.filter (fun y => decide (y.sku = r.sku)) :=
            List.mem_filter.mpr ⟨hx, by simpa using hxs⟩
          rw [hrs] at hmem
          exact absurd hmem (List.not_mem_nil x)
        rw [lookupCand_put_of_not_mem ch rs (putOne ch r items) hnone2]
        cases hfound : lookupCand r.sku items with
        | some c0 =>
          exact ⟨_, lookupCand_putOne_found ch r items c0 hfound,
            getChannel_setChannel_self ch r.val c0.scores⟩
        | none =>
          exact ⟨_, lookupCand_putOne_missing ch r items hfound,
            getChannel_setChannel_self ch r.val {}⟩
      · obtain ⟨y, ys, hys⟩ := List.exists_cons_of_ne_nil hrs
        rw [hys, List.getLast?_cons_cons, ← hys] at hlast
        exact ih (putOne ch r items) hlast
    · rw [List.filter_cons_of_neg (by simpa using hr)] at hlast
      exact ih (putOne ch r items) hlast

theorem put_first_name (ch : Channel) (rows : List ChanRow) (items : List Candidate)
    (s : String) (r0 : ChanRow) (hnone : lookupCand s items = none)
    (hfirst : (rows.filter (fun r => r.sku = s)).head? = some r0) :
    ∃ c, lookupCand s (put items ch rows) = some c ∧
      c.name = r0.name ∧ c.codigo_barras = r0.codigo_barras := by
  induction rows generalizing items with
  | nil => simp at hfirst
  | cons r rs ih =>
    rw [put_cons]
    by_cases hr : r.sku = s
    · subst hr
      rw [List.filter_cons_of_pos (by simp), List.head?_cons] at hfirst
      have hrr : r = r0 := by simpa using hfirst
      subst hrr
      exact put_preserves_found ch rs (putOne ch r items)
        ⟨r.sku, r.name, r.codigo_barras, setChannel ch r.val {}⟩
        (lookupCand_putOne_missing ch r items hnone)
    · rw [List.filter_cons_of_neg (by simpa using hr)] at hfirst
      exact ih (putOne ch r items)
        ((lookupCand_putOne_ne ch r items hr).trans hnone) hfirst

/-- C3 counterexample: with two keyword rows carrying the same SKU, the
aggregator stores the raw score 3 of the second (last) occurrence, not the 2
of the first — while name and barcode do come from the first row. -/
theorem C3_counterexample :
    put [] .kw [⟨"S", "n", "c", 2⟩, ⟨"S", "n2", "c2", 3⟩] =
      [⟨"S", "n", "c", { kw := some 3 }⟩] := by
  simp [put, putOne, setChannel]

/-- C3 amended: when a SKU appears more than once in one channel's rows the
aggregator records the raw score of the LAST occurrence (each later
occurrence overwrites the entry), while the candidate's name and barcode stay
those of the first row, from any channel, that introduced the SKU: they are
unchanged by later rows if the SKU was already present, and come from the
first matching row of the channel that introduces it. -/
theorem C3_amended_aggregator (ch : Channel) (rows : List ChanRow)
    (items : List Candidate) (s : String) :
    (∀ rl, (rows.filter (fun r => r.sku = s)).getLast? = some rl →
      ∃ c, lookupCand s (put items ch rows) = some c ∧
        getChannel ch c.scores = some rl.val)
    ∧ (∀ c0, lookupCand s items = some c0 →
      ∃ c, lookupCand s (put items ch rows) = some c ∧
        c.name = c0.name ∧ c.codigo_barras = c0.codigo_barras)
    ∧ (lookupCand s items = none →
      ∀ r0, (rows.filter (fun r => r.sku = s)).head? = some r0 →
      ∃ c, lookupCand s (put items ch rows) = some c ∧
        c.name = r0.name ∧ c.codigo_barras = r0.codigo_barras) :=
  ⟨fun rl h => put_score_last ch rows items s rl h,
   fun c0 h => put_preserves_found ch rows items c0 h,
   fun hn r0 h => put_first_name ch rows items s r0 hn h⟩

/-- Closed instance of `C3_amended_aggregator` at the duplicate-SKU input:
the recorded keyword score is the last occurrence's value 3. -/
theorem C3_witness :
    ∃ c, lookupCand "S" (put [] .kw [⟨"S", "n", "c", 2⟩, ⟨"S", "n2", "c2", 3⟩]) = some c ∧
      getChannel .kw c.scores = some 3 :=
  (C3_amended_aggregator .kw [⟨"S", "n", "c", 2⟩, ⟨"S", "n2", "c2", 3⟩] [] "S").1
    ⟨"S", "n2", "c2", 3⟩ (by simp)

theorem rebalance_invariants (a b g d mv mf mt mk : ℚ)
    (ha : 0 < a) (hb : 0 < b) (hg : 0 < g) (hd : 0 < d) :
    ((mv ≤ 0 → (rebalance a b g d mv mf mt mk).vec = 0) ∧
     (mf ≤ 0 → (rebalance a b g d mv mf mt mk).ft = 0) ∧
     (mt ≤ 0 → (rebalance a b g d mv mf mt mk).trgm = 0) ∧
     (mk ≤ 0 → (rebalance a b g d mv mf mt mk).kw = 0)) ∧
    ((0 < mv ∨ 0 < mf ∨ 0 < mt ∨ 0 < mk) →
      (rebalance a b g d mv mf mt mk).vec + (rebalance a b g d mv mf mt mk).ft +
        (rebalance a b g d mv mf mt mk).trgm + (rebalance a b g d mv mf mt mk).kw = 1) ∧
    ((mv ≤ 0 ∧ mf ≤ 0 ∧ mt ≤ 0 ∧ mk ≤ 0) →
      rebalance a b g d mv mf mt mk = ⟨0, 0, 0, 0⟩) := by
  simp only [rebalance]
  set wv := if 0 < mv then a else 0 with hwv
  set wf := if 0 < mf then b else 0 with hwf
  set wt := if 0 < mt then g else 0 with hwt
  set wk := if 0 < mk then d else 0 with hwk
  have hwv0 : 0 ≤ wv := by rw [hwv]; split <;> simp [ha.le]
  have hwf0 : 0 ≤ wf := by rw [hwf]; split <;> simp [hb.le]
  have hwt0 : 0 ≤ wt := by rw [hwt]; split <;> simp [hg.le]
  have hwk0 : 0 ≤ wk := by rw [hwk]; split <;> simp [hd.le]
  refine ⟨⟨fun h => ?_, fun h => ?_, fun h => ?_, fun h => ?_⟩, fun h => ?_, fun h => ?_⟩
  · have hz : wv = 0 := by rw [hwv, if_neg (not_lt.mpr h)]
    split <;> simp [hz]
  · have hz : wf = 0 := by rw [hwf, if_neg (not_lt.mpr h)]
    split <;> simp [hz]
  · have hz : wt = 0 := by rw [hwt, if_neg (not_lt.mpr h)]
    split <;> simp [hz]
  · have hz : wk = 0 := by rw [hwk, if_neg (not_lt.mpr h)]
    split <;> simp [hz]
  · have htpos : 0 < wv + wf + wt + wk := by
      rcases h with h | h | h | h
      · have hv : wv = a := by rw [hwv, if_pos h]
        rw [hv]; linarith
      · have hv : wf = b := by rw [hwf, if_pos h]
        rw [hv]; linarith
      · have hv : wt = g := by rw [hwt, if_pos h]
        rw [hv]; linarith
      · have hv : wk = d := by rw [hwk, if_pos h]
        rw [hv]; linarith
    rw [if_pos htpos]
    show wv / _ + wf / _ + wt / _ + wk / _ = 1
    rw [div_add_div_same, div_add_div_same, div_add_div_same, div_self (ne_of_gt htpos)]
  · obtain ⟨h1, h2, h3, h4⟩ := h
    have hz1 : wv = 0 := by rw [hwv, if_neg (not_lt.mpr h1)]
    have hz2 : wf = 0 := by rw [hwf, if_neg (not_lt.mpr h2)]
    have hz3 : wt = 0 := by rw [hwt, if_neg (not_lt.mpr h3)]
    have hz4 : wk = 0 := by rw [hwk, if_neg (not_lt.mpr h4)]
    rw [hz1, hz2, hz3, hz4]
    norm_num

/-- C6: with positive caller weights, after rebalancing every channel whose
maximum raw score is not positive has weight exactly 0; if at least one
channel has a positive maximum the four weights sum to 1 (so within 1e-9 of
1, and the zero clauses make this the sum of the surviving channels); and if
no channel has a positive maximum all four weights are 0 and every
candidate's fused score is 0. -/
theorem C6_weight_invariants (p : Params) (b : Backend)
    (ha : 0 < p.alpha) (hb : 0 < p.beta) (hg : 0 < p.gamma) (hd : 0 < p.delta) :
    ((maxChan .vec (aggregateAll b) ≤ 0 → (weightsOf p b).vec = 0) ∧
     (maxChan .ft (aggregateAll b) ≤ 0 → (weightsOf p b).ft = 0) ∧
     (maxChan .trgm (aggregateAll b) ≤ 0 → (weightsOf p b).trgm = 0) ∧
     (maxChan .kw (aggregateAll b) ≤ 0 → (weightsOf p b).kw = 0)) ∧
    ((0 < maxChan .vec (aggregateAll b) ∨ 0 < maxChan .ft (aggregateAll b) ∨
      0 < maxChan .trgm (aggregateAll b) ∨ 0 < maxChan .kw (aggregateAll b)) →
      |(weightsOf p b).vec + (weightsOf p b).ft + (weightsOf p b).trgm +
        (weightsOf p b).kw - 1| ≤ 1 / 1000000000) ∧
    ((maxChan .vec (aggregateAll b) ≤ 0 ∧ maxChan .ft (aggregateAll b) ≤ 0 ∧
      maxChan .trgm (aggregateAll b) ≤ 0 ∧ maxChan .kw (aggregateAll b) ≤ 0) →
      weightsOf p b = ⟨0, 0, 0, 0⟩ ∧ ∀ e ∈ fusedEntries p b, e.score = 0) := by
  have hinv := rebalance_invariants p.alpha p.beta p.gamma p.delta
    (maxChan .vec (aggregateAll b)) (maxChan .ft (aggregateAll b))
    (maxChan .trgm (aggregateAll b)) (maxChan .kw (aggregateAll b)) ha hb hg hd
  have hw : weightsOf p b = rebalance p.alpha p.beta p.gamma p.delta
      (maxChan .vec (aggregateAll b)) (maxChan .ft (aggregateAll b))
      (maxChan .trgm (aggregateAll b)) (maxChan .kw (aggregateAll b)) := rfl
  refine ⟨by rw [hw]; exact hinv.1, fun h => ?_, fun h => ?_⟩
  · rw [hw, hinv.2.1 h]
    norm_num
  · obtain ⟨h1, h2, h3, h4⟩ := h
    refine ⟨by rw [hw]; exact hinv.2.2 ⟨h1, h2, h3, h4⟩, ?_⟩
    intro e he
    simp only [fusedEntries, List.mem_map] at he
    obtain ⟨it, hit, rfl⟩ := he
    simp only [normChan, if_neg (not_lt.mpr h1), if_neg (not_lt.mpr h2),
      if_neg (not_lt.mpr h3), if_neg (not_lt.mpr h4), mul_zero, add_zero, roundTo_zero]

/-- Closed instance of `C6_weight_invariants`: on the keyword-only fixture
the rebalanced weights sum to 1 within 1e-9. -/
theorem C6_witness :
    |(weightsOf pDef bTieBA).vec + (weightsOf pDef bTieBA).ft +
      (weightsOf pDef bTieBA).trgm + (weightsOf pDef bTieBA).kw - 1| ≤ 1 / 1000000000 := by
  refine (C6_weight_invariants pDef bTieBA (by norm_num [pDef]) (by norm_num [pDef])
    (by norm_num [pDef]) (by norm_num [pDef])).2.1 ?_
  right; right; right
  simp [aggregateAll, put, putOne, maxChan, chanScore, getChannel, setChannel, bTieBA,
    kwRowToChan]

theorem getChannel_setChannel (ch ch2 : Channel) (v : ℚ) (s : Scores) :
    getChannel ch2 (setChannel ch v s) = if ch2 = ch then some v else getChannel ch2 s := by
  cases ch <;> cases ch2 <;> simp [setChannel, getChannel]

theorem putOne_nonneg (ch : Channel) (r : ChanRow) (hv : 0 ≤ r.val) :
    ∀ {items : List Candidate},
      (∀ c ∈ items, ∀ ch2 : Channel, 0 ≤ chanScore ch2 c) →
      ∀ c ∈ putOne ch r items, ∀ ch2 : Channel, 0 ≤ chanScore ch2 c := by
  intro items
  induction items with
  | nil =>
    intro _ c hc ch2
    simp only [putOne, List.mem_singleton] at hc
    subst hc
    simp only [chanScore, getChannel_setChannel]
    split
    · simpa using hv
    · cases ch2 <;> simp [getChannel]
  | cons a as ih =>
    intro h c hc ch2
    simp only [putOne] at hc
    split at hc
    · rcases List.mem_cons.mp hc with rfl | hc2
      · simp only [chanScore, getChannel_setChannel]
        split
        · simpa using hv
        · exact h a (List.mem_cons_self a as) ch2
      · exact h c (List.mem_cons_of_mem a hc2) ch2
    · rcases List.mem_cons.mp hc with rfl | hc2
      · exact h c (List.mem_cons_self c as) ch2
      · exact ih (fun x hx => h x (List.mem_cons_of_mem a hx)) c hc2 ch2

theorem put_nonneg (ch : Channel) :
    ∀ (rows : List ChanRow), (∀ r ∈ rows, 0 ≤ r.val) →
      ∀ {items : List Candidate},
        (∀ c ∈ items, ∀ ch2 : Channel, 0 ≤ chanScore ch2 c) →
        ∀ c ∈ put items ch rows, ∀ ch2 : Channel, 0 ≤ chanScore ch2 c := by
  intro rows
  induction rows with
  | nil => intro _ items h; exact h
  | cons r rs ih =>
    intro hrows items h
    rw [put_cons]
    exact ih (fun x hx => hrows x (List.mem_cons_of_mem r hx))
      (putOne_nonneg ch r (hrows r (List.mem_cons_self r rs)) h)

theorem aggregateAll_nonneg (b : Backend)
    (hft : ∀ r ∈ b.ftRows, 0 ≤ r.score_ft)
    (htr : ∀ r ∈ b.trgmRows, 0 ≤ r.score_trgm)
    (hkw : ∀ r ∈ b.kwRows, 0 ≤ r.score_kw) :
    ∀ c ∈ aggregateAll b, ∀ ch2 : Channel, 0 ≤ chanScore ch2 c := by
  unfold aggregateAll
  refine put_nonneg .kw _ ?_ (put_nonneg .trgm _ ?_ (put_nonneg .ft _ ?_
    (put_nonneg .vec _ ?_ (fun c hc => absurd hc (List.not_mem_nil c)))))
  · intro r hr
    obtain ⟨x, hx, rfl⟩ := List.mem_map.mp hr
    exact hkw x hx
  · intro r hr
    obtain ⟨x, hx, rfl⟩ := List.mem_map.mp hr
    exact htr x hx
  · intro r hr
    obtain ⟨x, hx, rfl⟩ := List.mem_map.mp hr
    exact hft x hx
  · intro r hr
    obtain ⟨x, hx, rfl⟩ := List.mem_map.mp hr
    exact le_max_left 0 _

theorem le_foldl_max (ch : Channel) (l : List Candidate) :
    ∀ init : ℚ, init ≤ l.foldl (fun m x => max m (chanScore ch x)) init ∧
      ∀ c ∈ l, chanScore ch c ≤ l.foldl (fun m x => max m (chanScore ch x)) init := by
  induction l with
  | nil =>
    intro init
    exact ⟨le_refl _, fun c hc => absurd hc (List.not_mem_nil c)⟩
  | cons a as ih =>
    intro init
    simp only [List.foldl_cons]
    refine ⟨le_trans (le_max_left init (chanScore ch a)) (ih _).1, fun c hc => ?_⟩
    rcases List.mem_cons.mp hc with rfl | hc2
    · exact le_trans (le_max_right init (chanScore ch c)) (ih _).1
    · exact (ih _).2 c hc2

theorem le_maxChan (ch : Channel) {items : List Candidate} {c : Candidate}
    (hc : c ∈ items) : chanScore ch c ≤ maxChan ch items := by
  cases items with
  | nil => exact absurd hc (List.not_mem_nil c)
  | cons a as =>
    simp only [maxChan]
    rcases List.mem_cons.mp hc with rfl | hc2
    · exact (le_foldl_max ch as (chanScore ch c)).1
    · exact (le_foldl_max ch as (chanScore ch a)).2 c hc2

/-- C7: when the backend raw scores are nonnegative (vector scores are
clamped by `max(0, 1 - dist)` in the adapter itself), every candidate's
per-channel normalized score lies in [0, 1]; it equals raw/max when the
channel maximum is positive and 0 otherwise (in particular for an empty
channel). -/
theorem C7_normalized_in_unit (b : Backend)
    (hft : ∀ r ∈ b.ftRows, 0 ≤ r.score_ft)
    (htr : ∀ r ∈ b.trgmRows, 0 ≤ r.score_trgm)
    (hkw : ∀ r ∈ b.kwRows, 0 ≤ r.score_kw) :
    ∀ c ∈ aggregateAll b, ∀ ch : Channel,
      (0 ≤ normChan (chanScore ch c) (maxChan ch (aggregateAll b)) ∧
        normChan (chanScore ch c) (maxChan ch (aggregateAll b)) ≤ 1) ∧
      (0 < maxChan ch (aggregateAll b) →
        normChan (chanScore ch c) (maxChan ch (aggregateAll b)) =
          chanScore ch c / maxChan ch (aggregateAll b)) ∧
      (maxChan ch (aggregateAll b) ≤ 0 →
        normChan (chanScore ch c) (maxChan ch (aggregateAll b)) = 0) := by
  intro c hc ch
  have h0 : 0 ≤ chanScore ch c := aggregateAll_nonneg b hft htr hkw c hc ch
  have hle : chanScore ch c ≤ maxChan ch (aggregateAll b) := le_maxChan ch hc
  refine ⟨?_, fun hpos => by unfold normChan; rw [if_pos hpos],
    fun hnp => by unfold normChan; rw [if_neg (not_lt.mpr hnp)]⟩
  unfold normChan
  split
  · rename_i hpos
    exact ⟨div_nonneg h0 hpos.le, (div_le_one hpos).mpr hle⟩
  · exact ⟨le_refl 0, zero_le_one⟩

/-- Closed instance of `C7_normalized_in_unit` on the keyword-only fixture:
the first aggregated candidate's keyword normalized score lies in [0, 1]. -/
theorem C7_witness :
    0 ≤ normChan (chanScore .kw ⟨"B", "prod b", "2", { kw := some 2 }⟩)
      (maxChan .kw (aggregateAll bTieBA)) ∧
    normChan (chanScore .kw ⟨"B", "prod b", "2", { kw := some 2 }⟩)
      (maxChan .kw (aggregateAll bTieBA)) ≤ 1 := by
  have hagg : aggregateAll bTieBA =
      [⟨"B", "prod b", "2", { kw := some 2 }⟩, ⟨"A", "prod a", "1", { kw := some 2 }⟩] := by
    simp [aggregateAll, put, putOne, setChannel, bTieBA, kwRowToChan, vecRowToChan,
      ftRowToChan, trgmRowToChan]
  have hmem : (⟨"B", "prod b", "2", { kw := some 2 }⟩ : Candidate) ∈ aggregateAll bTieBA := by
    rw [hagg]
    exact List.mem_cons_self _ _
  exact (C7_normalized_in_unit bTieBA (by simp [bTieBA]) (by simp [bTieBA])
    (by simp [bTieBA]) _ hmem .kw).1

end SearchProducts
